import Mathlib

/-!
Verification development for the study.ai repository.

Shallow embedding of the three core components of the source:
the multi-credential LLM failover client (`server.py`, class `LLMFallback`),
the hybrid retrieval pipeline (`server.py` / `app.py`, `retrieve_context`),
and the SM-2 spaced-repetition scheduler (`server.py`, `api_review_flashcard`).

Conventions: Python floats are modelled as exact rationals (ℚ); Python ints as ℤ/ℕ;
JSON records with possibly-missing fields use `Option`; timestamps are rationals
measured in days, so `timedelta(days=i)` is addition of `i`.
-/

/- ### String helpers (Python `in` and `.lower()`) -/

/-- Does `pat` occur as a contiguous sublist of `s`? -/
def listContainsSub (pat : List Char) : List Char → Bool
  | [] => pat.isEmpty
  | a :: rest => pat.isPrefixOf (a :: rest) || listContainsSub pat rest

/-- Python `pat in s` substring test. -/
def strContains (s pat : String) : Bool :=
  listContainsSub pat.toList s.toList

/-- Python `s.lower()`, character-wise (the error-signature patterns matched in
the source are plain ASCII). -/
def strToLower (s : String) : String :=
  String.mk (s.toList.map Char.toLower)

/- ### Credential pool and failover client (`server.py` lines 92-131) -/

/-- Outcome of one underlying `model.generate_content` call: either a response
or a raised exception carrying a message string. -/
inductive CallResult where
  | ok (resp : String)
  | err (msg : String)
deriving DecidableEq

/-- `is_quota` classification (`server.py` line 120):
any of "429", "quota", "exhausted" occurs in the lowercased error text. -/
def is_quota (msg : String) : Bool :=
  ["429", "quota", "exhausted"].any (fun x => strContains (strToLower msg) x)

/-- `is_server` classification (`server.py` line 121):
any of "500", "503", "504" occurs in the error text (case-sensitive). -/
def is_server (msg : String) : Bool :=
  ["500", "503", "504"].any (fun x => strContains msg x)

/-- An error is transient (retried across the pool) iff `is_quota or is_server`
(`server.py` line 123). -/
def isTransientError (msg : String) : Bool :=
  is_quota msg || is_server msg

/-- Final outcome of `generate_content_async`. -/
inductive GenOutcome where
  | success (resp : String)
  /-- a non-recoverable error re-raised by the bare `raise` (line 127) -/
  | raised (msg : String)
  /-- the aggregated exhaustion error of line 131, carrying the pool size and
  the last underlying error (`f"All {n} API keys failed. Last error: {last_error}"`) -/
  | exhausted (numKeys : Nat) (lastError : Option String)
deriving DecidableEq

/-- Observable result of one `generate_content_async` call. -/
structure GenRun where
  /-- number of loop iterations that invoked the underlying call -/
  attempts : Nat
  /-- credential indices attempted, in order -/
  trace : List Nat
  /-- `self.current_index` after the call returns/raises -/
  currentIndex : Nat
  outcome : GenOutcome
deriving DecidableEq

/-- The `for attempt in range(len(self.api_keys))` loop of
`generate_content_async` (`server.py` lines 96-127), structurally recursive on
the number of remaining iterations.  `call idx` is the underlying
`model.generate_content` for credential `idx`; `n` is `len(self.api_keys)`;
`cur` is `self.current_index` on entry; `attempt` the current loop counter;
`le` the running `last_error`; `tr` the indices attempted so far. -/
def generateAux (call : Nat → CallResult) (n cur : Nat) :
    Nat → Nat → Option String → List Nat → GenRun
  | 0, attempt, le, tr =>
      { attempts := attempt, trace := tr, currentIndex := cur,
        outcome := .exhausted n le }
  | remaining + 1, attempt, le, tr =>
      let idx := (cur + attempt) % n
      match call idx with
      | .ok resp =>
          { attempts := attempt + 1, trace := tr ++ [idx],
            currentIndex := if idx = cur then cur else idx,
            outcome := .success resp }
      | .err msg =>
          if isTransientError msg then
            generateAux call n cur remaining (attempt + 1) (some msg) (tr ++ [idx])
          else
            { attempts := attempt + 1, trace := tr ++ [idx], currentIndex := cur,
              outcome := .raised msg }

/-- `LLMFallback.generate_content_async` (`server.py` lines 92-131) for a pool
of `n` credentials with `current_index = cur` on entry. -/
def generate_content_async (call : Nat → CallResult) (n cur : Nat) : GenRun :=
  generateAux call n cur n 0 none []

/- ### Hybrid retrieval pipeline (`server.py` lines 225-274, `app.py` lines 190-223) -/

/-- One metadata chunk, a record of the JSON metadata list:
`text` plus the optional `metadata.source_file` and optional top-level `source`. -/
structure Chunk where
  text : String
  metadata_source_file : Option String
  source : Option String
deriving DecidableEq

/-- `c.get("metadata", {}).get("source_file", c.get("source", "Unknown"))`
(`server.py` line 268, `app.py` line 218). -/
def chunkFname (c : Chunk) : String :=
  match c.metadata_source_file with
  | some f => f
  | none => c.source.getD "Unknown"

/-- One entry of the `raw_data` list: `{"id": sid, "file": fname, "text": ...}`. -/
structure RawEntry where
  id : Nat
  file : String
  text : String
deriving DecidableEq

/-- Python list indexing `l[i]` for a possibly negative `i`
(negative indices count from the end; out-of-range gives `none`). -/
def pyListGet (l : List Chunk) (i : Int) : Option Chunk :=
  if 0 ≤ i then l.get? i.toNat
  else if -i ≤ (l.length : Int) then l.get? (l.length - (-i).toNat) else none

/-- Candidate collection of `server.py` lines 249-252:
`if idx != -1 and idx < len(chunks): candidates.append(chunks[idx])`. -/
def collectCandidates (chunks : List Chunk) (idxs : List Int) : List Chunk :=
  (idxs.filter (fun i => i != -1 && decide (i < (chunks.length : Int)))).filterMap
    (pyListGet chunks)

/-- Candidate collection of `app.py` lines 203-205:
`if idx != -1: candidates.append(chunks[idx])`.  (An index beyond the chunk list
would raise `IndexError` in Python; FAISS only returns `-1` or valid row ids, and
the model drops such an impossible index.) -/
def collectCandidatesApp (chunks : List Chunk) (idxs : List Int) : List Chunk :=
  (idxs.filter (fun i => i != -1)).filterMap (pyListGet chunks)

/-- Stable descending insertion: `a` is placed before the first element whose
score is not strictly greater than `a`'s score. -/
def insertDesc (a : ℚ × Chunk) : List (ℚ × Chunk) → List (ℚ × Chunk)
  | [] => [a]
  | b :: rest => if a.1 < b.1 then b :: insertDesc a rest else a :: b :: rest

/-- Model of Python's stable `sorted(pairs, key=lambda x: x[0], reverse=True)`
(`server.py` line 259, `app.py` line 210): a stable insertion sort in descending
score order — elements with equal scores keep their original relative order. -/
def sortDesc : List (ℚ × Chunk) → List (ℚ × Chunk)
  | [] => []
  | a :: rest => insertDesc a (sortDesc rest)

/-- The HyDE prompt of `server.py` line 234 / `app.py` line 195. -/
def hydePrompt (query : String) : String :=
  s!"Write a short, theoretical paragraph answering this question: {query}"

/-- One labeled context block, `f"SOURCE [{sid}]: {text}"`. -/
def labelLine (sid : Nat) (txt : String) : String :=
  s!"SOURCE [{sid}]: {txt}"

/-- The labeling loop of `server.py` lines 263-271 (`for i, c in
enumerate(candidates)` with `sid = i + 1`), producing for each candidate its
context block, its `source_map` entry (string key `str(sid)`), and its
`raw_data` entry.  `sid` is the id of the first candidate in the list. -/
def labelEntries (sid : Nat) : List Chunk → List (String × (String × String) × RawEntry)
  | [] => []
  | c :: rest =>
      (labelLine sid c.text, (toString sid, chunkFname c),
        ⟨sid, chunkFname c, c.text⟩) :: labelEntries (sid + 1) rest

/-- The labeling loop of `app.py` lines 216-221; identical except the
`source_map` key is the integer `sid` itself (`source_map[sid] = fname`). -/
def labelEntriesApp (sid : Nat) : List Chunk → List (String × (Nat × String) × RawEntry)
  | [] => []
  | c :: rest =>
      (labelLine sid c.text, (sid, chunkFname c),
        ⟨sid, chunkFname c, c.text⟩) :: labelEntriesApp (sid + 1) rest

/-- The embedding input: the raw query, unless HyDE substituted the generated
hypothetical answer (`server.py` lines 231-237, `app.py` lines 193-197). -/
def searchQueryOf (llmText : String → String) (query : String) (use_hyde : Bool) : String :=
  if use_hyde then llmText (hydePrompt query) else query

/-- `fetch_k = top_k * 2 if use_rerank else top_k` (`server.py` line 242). -/
def serverFetchK (top_k : Nat) (use_rerank : Bool) : Nat :=
  if use_rerank then top_k * 2 else top_k

/-- `fetch_k = top_k * 3 if use_rerank else top_k` (`app.py` line 199). -/
def appFetchK (top_k : Nat) (use_rerank : Bool) : Nat :=
  if use_rerank then top_k * 3 else top_k

/-- The rerank block body (`server.py` lines 256-260, `app.py` lines 208-211):
score each `[query, text]` pair, stable-sort descending by score, keep the
first `top_k`, and drop the scores. -/
def rerankStage (scoreFn : String → String → ℚ) (query : String) (top_k : Nat)
    (cands0 : List Chunk) : List Chunk :=
  ((sortDesc ((cands0.map (fun c => scoreFn query c.text)).zip cands0)).take top_k).map
    Prod.snd

/-- The final candidate list: reranked iff `use_rerank and candidates`
(`server.py` line 254, `app.py` line 207). -/
def finalStage (scoreFn : String → String → ℚ) (query : String) (top_k : Nat)
    (use_rerank : Bool) (cands0 : List Chunk) : List Chunk :=
  if use_rerank && !cands0.isEmpty then rerankStage scoreFn query top_k cands0 else cands0

/-- The `[query, c["text"]]` pairs handed to `cross_encoder.predict`
(`server.py` line 256, `app.py` line 208); empty when the rerank block is
skipped. -/
def pairsStage (query : String) (use_rerank : Bool) (cands0 : List Chunk) :
    List (String × String) :=
  if use_rerank && !cands0.isEmpty then cands0.map (fun c => (query, c.text)) else []

/-- Observable result of one `retrieve_context` call (server variant), plus
instrumentation recording the calls made to the embedder, the index and the
cross-encoder. -/
structure RetrieveOut where
  /-- the `"\n\n".join(labeled_ctx)` string -/
  ctx : String
  /-- the `source_map` dict as an ordered association list with `str(sid)` keys -/
  source_map : List (String × String)
  raw : List RawEntry
  /-- the final candidate list after optional reranking/truncation -/
  finalCands : List Chunk
  /-- arguments of `embedder.encode` calls, in order -/
  embedInputs : List String
  /-- the `k` arguments of `index.search` calls, in order -/
  searchCalls : List Nat
  /-- the `(query, text)` pairs given to `cross_encoder.predict` -/
  rerankPairs : List (String × String)
deriving DecidableEq

/-- Observable result of `retrieve_context` in `app.py` (integer `source_map` keys). -/
structure RetrieveOutApp where
  ctx : String
  source_map : List (Nat × String)
  raw : List RawEntry
  finalCands : List Chunk
  embedInputs : List String
  searchCalls : List Nat
  rerankPairs : List (String × String)
deriving DecidableEq

/-- `retrieve_context` of `server.py` lines 225-274.  The environment is
abstracted: `searchFn sq k` gives the row indices `index.search` returns for
embedded query `sq` and width `k`; `llmText p` the text of
`llm.generate_content_async(p)` (used only for HyDE); `scoreFn q t` the
cross-encoder score of the pair `[q, t]`; `indexLoaded` whether `index is None`
is false. -/
def retrieve_context_server (chunks : List Chunk) (searchFn : String → Nat → List Int)
    (llmText : String → String) (scoreFn : String → String → ℚ) (indexLoaded : Bool)
    (query : String) (top_k : Nat) (use_hyde : Bool) (use_rerank : Bool) : RetrieveOut :=
  if indexLoaded then
    let search_query := searchQueryOf llmText query use_hyde
    let fetch_k := serverFetchK top_k use_rerank
    let idxs := searchFn search_query fetch_k
    let cands0 := collectCandidates chunks idxs
    let cands := finalStage scoreFn query top_k use_rerank cands0
    let entries := labelEntries 1 cands
    { ctx := String.intercalate "\n\n" (entries.map (fun e => e.1)),
      source_map := entries.map (fun e => e.2.1),
      raw := entries.map (fun e => e.2.2),
      finalCands := cands,
      embedInputs := [search_query],
      searchCalls := [fetch_k],
      rerankPairs := pairsStage query use_rerank cands0 }
  else
    { ctx := "", source_map := [], raw := [], finalCands := [],
      embedInputs := [], searchCalls := [], rerankPairs := [] }

/-- `retrieve_context` of `app.py` lines 190-223: over-fetch factor 3 instead
of 2, no upper-bound check on returned indices, integer `source_map` keys. -/
def retrieve_context_app (chunks : List Chunk) (searchFn : String → Nat → List Int)
    (llmText : String → String) (scoreFn : String → String → ℚ) (indexLoaded : Bool)
    (query : String) (top_k : Nat) (use_hyde : Bool) (use_rerank : Bool) : RetrieveOutApp :=
  if indexLoaded then
    let search_query := searchQueryOf llmText query use_hyde
    let fetch_k := appFetchK top_k use_rerank
    let idxs := searchFn search_query fetch_k
    let cands0 := collectCandidatesApp chunks idxs
    let cands := finalStage scoreFn query top_k use_rerank cands0
    let entries := labelEntriesApp 1 cands
    { ctx := String.intercalate "\n\n" (entries.map (fun e => e.1)),
      source_map := entries.map (fun e => e.2.1),
      raw := entries.map (fun e => e.2.2),
      finalCands := cands,
      embedInputs := [search_query],
      searchCalls := [fetch_k],
      rerankPairs := pairsStage query use_rerank cands0 }
  else
    { ctx := "", source_map := [], raw := [], finalCands := [],
      embedInputs := [], searchCalls := [], rerankPairs := [] }

/- ### Spaced-repetition scheduler (`server.py` lines 426-469) -/

/-- A persisted flashcard record.  SM-2 fields are optional because legacy
records (e.g. those written by `app.py`, which stores only `box` and
`next_review`) may lack them; `card.get(...)` defaults are applied on review.
`next_review` is a timestamp measured in days. -/
structure Flashcard where
  front : String
  back : String
  repetition : Option Int
  interval : Option ℚ
  ease_factor : Option ℚ
  next_review : Option ℚ
deriving DecidableEq

/-- `q_map = {"Hard": 1, "Medium": 3, "Easy": 5}; q = q_map.get(difficulty, 3)`
(`server.py` lines 433-434). -/
def qMap (difficulty : String) : Int :=
  if difficulty = "Hard" then 1
  else if difficulty = "Medium" then 3
  else if difficulty = "Easy" then 5
  else 3

/-- Python's `round` (banker's rounding: halves go to the nearest even
integer), on exact rationals. -/
def pyRound (x : ℚ) : Int :=
  let f := ⌊x⌋
  let r := x - f
  if r < 1/2 then f
  else if 1/2 < r then f + 1
  else if f % 2 = 0 then f else f + 1

/-- The SM-2 update applied to one matching card (`server.py` lines 432-465).
`now` is the current timestamp in days, so `timedelta(days=interval)` is
`now + interval`. -/
def sm2Apply (now : ℚ) (difficulty : String) (card : Flashcard) : Flashcard :=
  let q := qMap difficulty
  let rep0 := card.repetition.getD 0
  let interval0 := card.interval.getD 1
  let ef0 := card.ease_factor.getD 2.5
  let rep := if q < 3 then 0 else rep0 + 1
  let interval : ℚ :=
    if q < 3 then 1
    else if rep0 = 0 then 1
    else if rep0 = 1 then 6
    else (pyRound (interval0 * ef0) : ℚ)
  let ef1 := ef0 + (0.1 - ((5 - q : Int) : ℚ) * (0.08 + ((5 - q : Int) : ℚ) * 0.02))
  let ef := if ef1 < 1.3 then 1.3 else ef1
  { card with
    repetition := some rep, interval := some interval,
    ease_factor := some ef, next_review := some (now + interval) }

/-- The `for card in cards` loop of `api_review_flashcard` (`server.py` lines
430-466): the first card whose `front` equals the reviewed question is updated
with `sm2Apply` and the loop `break`s; all other cards pass through unchanged. -/
def reviewList (now : ℚ) (question difficulty : String) : List Flashcard → List Flashcard
  | [] => []
  | c :: rest =>
      if c.front = question then sm2Apply now difficulty c :: rest
      else c :: reviewList now question difficulty rest

/-- A fresh card as initialized by `/api/flashcards/generate`
(`server.py` lines 409-413): `repetition=0, interval=1, ease_factor=2.5`. -/
def freshCard (front back : String) : Flashcard :=
  { front := front, back := back, repetition := some 0, interval := some 1,
    ease_factor := some 2.5, next_review := some 0 }

/- ### Concrete fixtures used by witness theorems -/

/-- Witness pool: credential 0 hits a quota error, credential 1 a 503, credential 2 succeeds. -/
def wCall : Nat → CallResult := fun i =>
  if i = 0 then .err "429 quota exceeded"
  else if i = 1 then .err "503 service unavailable"
  else .ok "hi"

/-- The transient error text seen at offset `o` from `current_index = 0` under `wCall`. -/
def wErr : Nat → String := fun o =>
  if o = 0 then "429 quota exceeded" else "503 service unavailable"

/-- Witness pool where every credential fails transiently. -/
def wCallAll : Nat → CallResult := fun i =>
  if i = 0 then .err "429" else if i = 1 then .err "quota hit" else .err "504 gateway"

/-- Error text at offset `o` from `current_index = 1` under `wCallAll`. -/
def wErrAll : Nat → String := fun o =>
  if o = 0 then "quota hit" else if o = 1 then "504 gateway" else "429"

/-- Witness pool: credential 0 fails transiently, credential 1 raises a
non-recoverable (safety) error, credential 2 would succeed but is never tried. -/
def wCallFatal : Nat → CallResult := fun i =>
  if i = 0 then .err "429 quota exceeded"
  else if i = 1 then .err "prompt blocked by safety filter"
  else .ok "unreached"

/-- The new interval prescribed by the spec's SM-2 update rule for quality `q`,
computed from the pre-update fields (with fresh-card defaults for missing ones). -/
def sm2NewInterval (card : Flashcard) (q : Int) : ℚ :=
  if q < 3 then 1
  else if card.repetition.getD 0 = 0 then 1
  else if card.repetition.getD 0 = 1 then 6
  else (pyRound (card.interval.getD 1 * card.ease_factor.getD 2.5) : ℚ)

/-- The SM-2 update rule as the spec states it: difficulty→quality mapping,
failure branch resets, success branch interval schedule, ease-factor update
floored at 1.3, and `next_review = now + interval`. -/
def SM2RuleStatement (now : ℚ) (d : String) (card : Flashcard) : Prop :=
  ((d = "Hard" → qMap d = 1) ∧ (d = "Medium" → qMap d = 3) ∧ (d = "Easy" → qMap d = 5)) ∧
  (sm2Apply now d card).front = card.front ∧
  (sm2Apply now d card).back = card.back ∧
  (sm2Apply now d card).repetition =
    some (if qMap d < 3 then 0 else card.repetition.getD 0 + 1) ∧
  (sm2Apply now d card).interval = some (sm2NewInterval card (qMap d)) ∧
  (sm2Apply now d card).ease_factor =
    some (max 1.3 (card.ease_factor.getD 2.5 +
      (0.1 - ((5 - qMap d : Int) : ℚ) * (0.08 + ((5 - qMap d : Int) : ℚ) * 0.02)))) ∧
  (sm2Apply now d card).next_review = some (now + sm2NewInterval card (qMap d))

/-- The spec's worked example: a fresh card reviewed "Easy" yields
`interval=1, repetition=1`; reviewed "Easy" again yields `interval=6, repetition=2`. -/
def sm2EasyChain : Prop :=
  (sm2Apply 0 "Easy" (freshCard "Q" "A")).interval = some 1 ∧
  (sm2Apply 0 "Easy" (freshCard "Q" "A")).repetition = some 1 ∧
  (sm2Apply 0 "Easy" (sm2Apply 0 "Easy" (freshCard "Q" "A"))).interval = some 6 ∧
  (sm2Apply 0 "Easy" (sm2Apply 0 "Easy" (freshCard "Q" "A"))).repetition = some 2

/-- Pre-state hypothesis of the SM-2 invariant: each SM-2 field is either
absent or within its documented bound. -/
def SM2WellFormed (card : Flashcard) : Prop :=
  (card.repetition = none ∨ ∃ r, card.repetition = some r ∧ 0 ≤ r) ∧
  (card.interval = none ∨ ∃ i, card.interval = some i ∧ 1 ≤ i) ∧
  (card.ease_factor = none ∨ ∃ e, card.ease_factor = some e ∧ (1.3 : ℚ) ≤ e)

/-- Post-state invariant: `ease_factor ≥ 1.3` and `interval ≥ 1`. -/
def SM2Bounds (card : Flashcard) : Prop :=
  (∃ e, card.ease_factor = some e ∧ (1.3 : ℚ) ≤ e) ∧
  (∃ i, card.interval = some i ∧ (1 : ℚ) ≤ i)

/-- The review endpoint updates exactly the first record whose `front` equals
the reviewed question (if any) and leaves every other record unchanged. -/
def reviewFirstMatchOnly (now : ℚ) (question difficulty : String)
    (cards : List Flashcard) : Prop :=
  reviewList now question difficulty cards =
    match cards.findIdx? (fun c => decide (c.front = question)) with
    | none => cards
    | some i =>
        match cards.get? i with
        | none => cards
        | some c => cards.set i (sm2Apply now difficulty c)

/-- Witness flashcard store: two distinct cards plus a legacy duplicate of the
first question missing all SM-2 fields. -/
def wCards : List Flashcard :=
  [freshCard "Q1" "A1", freshCard "Q2" "A2",
   { front := "Q1", back := "dup", repetition := none, interval := none,
     ease_factor := none, next_review := none }]

/-- Witness corpus of three chunks. -/
def wChunks3 : List Chunk :=
  [⟨"a", some "a.md", none⟩, ⟨"b", some "b.md", none⟩, ⟨"c", some "c.md", none⟩]

/-- Witness cross-encoder: scores 0.2 / 0.9 / 0.5 for texts "a" / "b" / "c". -/
def wScore3 : String → String → ℚ :=
  fun _ t => if t = "a" then mkRat 1 5 else if t = "b" then mkRat 9 10 else mkRat 1 2

/-- Witness index search returning rows 0, 1, 2. -/
def wSearch3 : String → Nat → List Int := fun _ _ => [0, 1, 2]

/-- Witness LLM returning its prompt verbatim. -/
def wId : String → String := fun s => s

/-- The spec's rerank example: candidate scores `[0.2, 0.9, 0.5]` come back in
order `[0.9, 0.5, 0.2]` for `top_k = 3`. -/
def rerankExample : Prop :=
  (retrieve_context_server wChunks3 wSearch3 wId wScore3 true "q" 3 false true).finalCands.map
    Chunk.text = ["b", "c", "a"]

/-- Citation-labeling contract of one retrieval output (server variant): ids
are `1..n` in final rank order, the `i`-th map/raw entries belong to the `i`-th
ranked candidate, the labeled context is the join of the `SOURCE [id]: text`
blocks, and an empty candidate set yields empty context/map/sequence. -/
def CitationProps (out : RetrieveOut) : Prop :=
  out.raw.map RawEntry.id = List.range' 1 out.finalCands.length ∧
  (∀ i c, out.finalCands.get? i = some c →
    out.raw.get? i = some ⟨i + 1, chunkFname c, c.text⟩ ∧
    out.source_map.get? i = some (toString (i + 1), chunkFname c)) ∧
  out.ctx = String.intercalate "\n\n" (out.raw.map (fun r => labelLine r.id r.text)) ∧
  (out.finalCands = [] → out.ctx = "" ∧ out.source_map = [] ∧ out.raw = []) ∧
  out.source_map = out.raw.map (fun r => (toString r.id, r.file))

/-- Citation-labeling contract of one retrieval output (app variant, integer
keys): looking up id `i+1` in the source map yields the `i`-th ranked
candidate's source file. -/
def CitationPropsApp (out : RetrieveOutApp) : Prop :=
  out.raw.map RawEntry.id = List.range' 1 out.finalCands.length ∧
  (∀ i c, out.finalCands.get? i = some c →
    List.lookup (i + 1) out.source_map = some (chunkFname c))

/- ### Theorems: credential failover client -/

set_option linter.unusedVariables false

/-- As long as every attempted credential fails transiently, the retry loop
walks offsets `a, a+1, ...` up to `k`, accumulating the attempted indices and
remembering the last error. -/
theorem generateAux_transient_prefix (call : Nat → CallResult) (n cur : Nat) (m : Nat → String)
    (k : Nat) (hk : k ≤ n)
    (hfail : ∀ o, o < k → call ((cur + o) % n) = CallResult.err (m o) ∧
      isTransientError (m o) = true) :
    ∀ d a, k - a = d → a ≤ k → ∀ le tr,
      generateAux call n cur (n - a) a le tr =
      generateAux call n cur (n - k) k (if a = k then le else some (m (k - 1)))
        (tr ++ (List.range' a (k - a)).map (fun o => (cur + o) % n)) := by
  intro d
  induction d with
  | zero =>
      intro a hd ha le tr
      have hak : a = k := by omega
      subst hak
      simp
  | succ d ih =>
      intro a hd ha le tr
      have hak : a < k := by omega
      have h1 : n - a = (n - (a + 1)) + 1 := by omega
      obtain ⟨hcall, htr⟩ := hfail a hak
      rw [h1]
      rw [show (List.range' a (k - a)) = a :: List.range' (a + 1) (k - (a + 1)) by
        rw [show k - a = (k - (a + 1)) + 1 by omega, List.range'_succ]]
      simp only [generateAux, hcall, htr, if_true, List.map_cons]
      rw [ih (a + 1) (by omega) (by omega) (some (m a)) (tr ++ [(cur + a) % n])]
      have hle : (if a + 1 = k then some (m a) else some (m (k - 1))) = some (m (k - 1)) := by
        by_cases hek : a + 1 = k
        · rw [if_pos hek]
          have : a = k - 1 := by omega
          rw [this]
        · rw [if_neg hek]
      rw [hle, if_neg (by omega : ¬ a = k)]
      simp

/-- Claim C1: with `current_index = cur` in a pool of `n ≥ 1` credentials, if the
candidates at offsets `0..k-1` (wrapping modulo `n`) fail transiently and the
candidate at offset `k` succeeds, `generate_content_async` makes exactly `k+1`
attempts in rotation order, returns the successful response, and
`current_index` becomes the succeeding candidate's position `(cur+k) % n`
(unchanged when that position equals `cur`). -/
theorem pool_rotation_sticky (call : Nat → CallResult) (n cur k : Nat) (m : Nat → String)
    (resp : String) (hcur : cur < n) (hk : k < n)
    (hfail : ∀ o, o < k → call ((cur + o) % n) = CallResult.err (m o) ∧
      isTransientError (m o) = true)
    (hsucc : call ((cur + k) % n) = CallResult.ok resp) :
    generate_content_async call n cur =
      { attempts := k + 1,
        trace := (List.range' 0 (k + 1)).map (fun o => (cur + o) % n),
        currentIndex := (cur + k) % n,
        outcome := .success resp } := by
  unfold generate_content_async
  have h0 := generateAux_transient_prefix call n cur m k (le_of_lt hk) hfail k 0 rfl
    (Nat.zero_le k) none []
  simp only [Nat.sub_zero] at h0
  rw [h0]
  have h1 : n - k = (n - (k + 1)) + 1 := by omega
  rw [h1]
  simp only [generateAux, hsucc]
  have htr : (List.range' 0 k).map (fun o => (cur + o) % n) ++ [(cur + k) % n] =
      (List.range' 0 (k + 1)).map (fun o => (cur + o) % n) := by
    rw [List.range'_concat]
    simp
  have hcur' : (if (cur + k) % n = cur then cur else (cur + k) % n) = (cur + k) % n := by
    by_cases hek : (cur + k) % n = cur
    · rw [if_pos hek, hek]
    · rw [if_neg hek]
  simp only [hcur', List.nil_append, htr]

/-- Witness for C1 on a concrete pool: 3 credentials, offsets 0 and 1 fail
transiently, offset 2 succeeds; 3 attempts, sticky index moves to 2. -/
theorem pool_rotation_sticky_witness :
    ((0 < 3 ∧ 2 < 3) ∧
      (∀ o, o < 2 → wCall ((0 + o) % 3) = CallResult.err (wErr o) ∧
        isTransientError (wErr o) = true) ∧
      wCall ((0 + 2) % 3) = CallResult.ok "hi") ∧
    generate_content_async wCall 3 0 =
      { attempts := 3, trace := [0, 1, 2], currentIndex := 2,
        outcome := .success "hi" } :=
  ⟨⟨⟨by decide, by decide⟩, by decide, by decide⟩, by
    rw [pool_rotation_sticky wCall 3 0 2 wErr "hi" (by decide) (by decide)
      (by decide) (by decide)]
    rfl⟩

/-- Claim C2: if every credential in a pool of `n ≥ 1` fails transiently,
`generate_content_async` makes exactly `n` attempts — each credential tried
exactly once (the attempted-index trace has no duplicates) — and raises the
aggregated exhaustion error carrying the last attempted credential's error. -/
theorem pool_exhaustion (call : Nat → CallResult) (n cur : Nat) (m : Nat → String)
    (hn : 0 < n) (hcur : cur < n)
    (hfail : ∀ o, o < n → call ((cur + o) % n) = CallResult.err (m o) ∧
      isTransientError (m o) = true) :
    generate_content_async call n cur =
      { attempts := n,
        trace := (List.range' 0 n).map (fun o => (cur + o) % n),
        currentIndex := cur,
        outcome := .exhausted n (some (m (n - 1))) } ∧
    ((List.range' 0 n).map (fun o => (cur + o) % n)).Nodup := by
  constructor
  · unfold generate_content_async
    have h0 := generateAux_transient_prefix call n cur m n le_rfl hfail n 0 rfl
      (Nat.zero_le n) none []
    simp only [Nat.sub_zero] at h0
    rw [h0, Nat.sub_self, if_neg (by omega : ¬ (0 : Nat) = n)]
    simp [generateAux]
  · apply List.Nodup.map_on _ (List.nodup_range' 0 n)
    intro x hx y hy hxy
    rw [List.mem_range'] at hx hy
    obtain ⟨i, hi, rfl⟩ := hx
    obtain ⟨j, hj, rfl⟩ := hy
    simp only [Nat.one_mul, Nat.zero_add] at hxy ⊢
    have hmod : i % n = j % n := Nat.ModEq.add_left_cancel' cur hxy
    rw [Nat.mod_eq_of_lt hi, Nat.mod_eq_of_lt hj] at hmod
    exact hmod

/-- Witness for C2: 3 credentials starting at `current_index = 1`, all failing
transiently; 3 attempts over distinct indices `[1, 2, 0]`, exhaustion error
carrying the last error "429". -/
theorem pool_exhaustion_witness :
    ((0 < 3 ∧ 1 < 3) ∧
      (∀ o, o < 3 → wCallAll ((1 + o) % 3) = CallResult.err (wErrAll o) ∧
        isTransientError (wErrAll o) = true)) ∧
    generate_content_async wCallAll 3 1 =
      { attempts := 3, trace := [1, 2, 0], currentIndex := 1,
        outcome := .exhausted 3 (some "429") } ∧
    ([1, 2, 0] : List Nat).Nodup :=
  ⟨⟨⟨by decide, by decide⟩, by decide⟩, by
    have h := pool_exhaustion wCallAll 3 1 wErrAll (by decide) (by decide) (by decide)
    refine ⟨h.1.trans (by rfl), by decide⟩⟩

/-- Claim C3: if the first `j-1` attempts fail transiently and the `j`-th
attempt fails with a non-recoverable error (matching neither the quota nor the
5xx signatures), `generate_content_async` re-raises that error after exactly
`j` attempts, leaving `current_index` unchanged, even when untried credentials
remain (`j ≤ n` arbitrary). -/
theorem nonrecoverable_short_circuit (call : Nat → CallResult) (n cur j : Nat)
    (m : Nat → String) (msg : String) (hj : 1 ≤ j) (hjn : j ≤ n)
    (hfail : ∀ o, o < j - 1 → call ((cur + o) % n) = CallResult.err (m o) ∧
      isTransientError (m o) = true)
    (hfatal : call ((cur + (j - 1)) % n) = CallResult.err msg)
    (hnr : isTransientError msg = false) :
    generate_content_async call n cur =
      { attempts := j,
        trace := (List.range' 0 j).map (fun o => (cur + o) % n),
        currentIndex := cur,
        outcome := .raised msg } := by
  unfold generate_content_async
  have h0 := generateAux_transient_prefix call n cur m (j - 1) (by omega) hfail (j - 1) 0
    rfl (Nat.zero_le _) none []
  simp only [Nat.sub_zero] at h0
  rw [h0]
  have h1 : n - (j - 1) = (n - j) + 1 := by omega
  rw [h1]
  simp only [generateAux, hfatal, hnr, Bool.false_eq_true, if_false]
  have htr : (List.range' 0 (j - 1)).map (fun o => (cur + o) % n) ++ [(cur + (j - 1)) % n] =
      (List.range' 0 j).map (fun o => (cur + o) % n) := by
    rw [show j = (j - 1) + 1 by omega, List.range'_concat]
    simp
  have hat : (j - 1) + 1 = j := by omega
  simp only [List.nil_append, htr, hat]

/-- Witness for C3: 3 credentials, offset 0 fails transiently, offset 1 raises
a non-recoverable safety error; exactly 2 attempts, credential 2 never tried,
`current_index` stays 0. -/
theorem nonrecoverable_short_circuit_witness :
    ((1 ≤ 2 ∧ 2 ≤ 3) ∧
      (∀ o, o < 2 - 1 → wCallFatal ((0 + o) % 3) = CallResult.err (wErr o) ∧
        isTransientError (wErr o) = true) ∧
      wCallFatal ((0 + (2 - 1)) % 3) = CallResult.err "prompt blocked by safety filter" ∧
      isTransientError "prompt blocked by safety filter" = false) ∧
    generate_content_async wCallFatal 3 0 =
      { attempts := 2, trace := [0, 1], currentIndex := 0,
        outcome := .raised "prompt blocked by safety filter" } :=
  ⟨⟨⟨by decide, by decide⟩, by decide, by decide, by decide⟩, by
    rw [nonrecoverable_short_circuit wCallFatal 3 0 2 wErr "prompt blocked by safety filter"
      (by decide) (by decide) (by decide) (by decide) (by decide)]
    rfl⟩

/- ### Theorems: spaced-repetition scheduler -/

/-- Flooring an update at a threshold is a `max`. -/
theorem ite_lt_max (a b : ℚ) : (if a < b then b else a) = max b a := by
  rcases lt_or_le a b with h | h
  · rw [if_pos h, max_eq_left (le_of_lt h)]
  · rw [if_neg (not_lt.mpr h), max_eq_right h]

/-- Python rounding never drops below 1 on inputs that are at least 1. -/
theorem one_le_pyRound (x : ℚ) (hx : 1 ≤ x) : (1 : ℚ) ≤ (pyRound x : ℚ) := by
  have hf : (1 : Int) ≤ ⌊x⌋ := by
    rw [Int.le_floor]
    exact_mod_cast hx
  have h1 : (1 : Int) ≤ pyRound x := by
    simp only [pyRound]
    split_ifs <;> omega
  exact_mod_cast h1

/-- The SM-2 update depends on the difficulty string only through its quality. -/
theorem sm2Apply_congr (now : ℚ) (d1 d2 : String) (card : Flashcard)
    (h : qMap d1 = qMap d2) : sm2Apply now d1 card = sm2Apply now d2 card := by
  unfold sm2Apply
  rw [h]

/-- The review loop updates only the first matching record. -/
theorem reviewList_firstMatch (now : ℚ) (question d : String) (cards : List Flashcard) :
    reviewFirstMatchOnly now question d cards := by
  unfold reviewFirstMatchOnly
  induction cards with
  | nil => rfl
  | cons c rest ih =>
      by_cases h : c.front = question
      · simp [reviewList, List.findIdx?_cons, h]
      · have hpc : decide (c.front = question) = false := by simp [h]
        rw [show reviewList now question d (c :: rest) =
            c :: reviewList now question d rest from by simp [reviewList, h]]
        rw [List.findIdx?_cons, hpc]
        simp only [Bool.false_eq_true, if_false]
        rw [List.findIdx?_start_succ]
        cases hfd : List.findIdx? (fun x => decide (x.front = question)) rest with
        | none =>
            rw [hfd] at ih
            rw [ih]
            rfl
        | some j =>
            rw [hfd] at ih
            rw [ih]
            show c :: (match rest.get? j with
                | none => rest
                | some x => rest.set j (sm2Apply now d x)) =
              (match rest.get? j with
                | none => c :: rest
                | some x => c :: rest.set j (sm2Apply now d x))
            cases rest.get? j <;> rfl

/-- Claim C4: for a difficulty in {Hard, Medium, Easy}, the review update
implements the SM-2 rule exactly as specified (quality mapping, reset branch,
interval schedule, pre-update ease/interval use, 1.3 floor, `next_review =
now + interval`), and a fresh card reviewed "Easy" then "Easy" passes through
`interval=1, repetition=1` then `interval=6, repetition=2`. -/
theorem sm2_update_rule (now : ℚ) (d : String) (card : Flashcard)
    (hd : d = "Hard" ∨ d = "Medium" ∨ d = "Easy") :
    SM2RuleStatement now d card ∧ sm2EasyChain := by
  refine ⟨⟨⟨?_, ?_, ?_⟩, rfl, rfl, rfl, rfl, ?_, rfl⟩, by unfold sm2EasyChain; decide⟩
  · intro h; subst h; decide
  · intro h; subst h; decide
  · intro h; subst h; decide
  · exact congrArg some (ite_lt_max _ _)

/-- Witness for C4: instantiated at `d = "Easy"` on a fresh card. -/
theorem sm2_update_rule_witness :
    ("Easy" = "Hard" ∨ "Easy" = "Medium" ∨ "Easy" = "Easy") ∧
    (SM2RuleStatement 0 "Easy" (freshCard "Q" "A") ∧ sm2EasyChain) :=
  ⟨Or.inr (Or.inr rfl),
   sm2_update_rule 0 "Easy" (freshCard "Q" "A") (Or.inr (Or.inr rfl))⟩

/-- Claim C5: on any record whose SM-2 fields are each either absent or within
bounds, the review update yields `ease_factor ≥ 1.3` and `interval ≥ 1`
(and never fails — the update is total); a record missing all SM-2 fields is
updated exactly like a fresh card `(repetition=0, interval=1, ease_factor=2.5)`. -/
theorem sm2_invariants :
    (∀ now d card, SM2WellFormed card → SM2Bounds (sm2Apply now d card)) ∧
    (∀ (now : ℚ) (d f b : String) (nr : Option ℚ),
      sm2Apply now d ⟨f, b, none, none, none, nr⟩ =
      sm2Apply now d ⟨f, b, some 0, some 1, some 2.5, nr⟩) := by
  constructor
  · rintro now d card ⟨hr, hi, he⟩
    have hef : (1.3 : ℚ) ≤ card.ease_factor.getD 2.5 := by
      rcases he with h | ⟨e, he2, hle⟩
      · rw [h]; norm_num
      · rw [he2]; simpa using hle
    have hiv : (1 : ℚ) ≤ card.interval.getD 1 := by
      rcases hi with h | ⟨i, hi2, hle⟩
      · rw [h]; norm_num
      · rw [hi2]; simpa using hle
    constructor
    · refine ⟨_, rfl, ?_⟩
      split_ifs with h
      · exact le_refl _
      · exact le_of_not_lt h
    · refine ⟨_, rfl, ?_⟩
      split_ifs with h1 h2 h3
      · exact le_refl _
      · exact le_refl _
      · norm_num
      · exact one_le_pyRound _ (by nlinarith)
  · intro now d f b nr
    rfl

/-- Witness for C5: a fresh card reviewed "Hard" keeps `ease_factor ≥ 1.3`
and `interval ≥ 1`. -/
theorem sm2_invariants_witness :
    SM2WellFormed (freshCard "Q" "A") ∧ SM2Bounds (sm2Apply 0 "Hard" (freshCard "Q" "A")) :=
  ⟨⟨Or.inr ⟨0, rfl, le_refl 0⟩, Or.inr ⟨1, rfl, le_refl 1⟩, Or.inr ⟨2.5, rfl, by norm_num⟩⟩,
   sm2_invariants.1 0 "Hard" (freshCard "Q" "A")
     ⟨Or.inr ⟨0, rfl, le_refl 0⟩, Or.inr ⟨1, rfl, le_refl 1⟩, Or.inr ⟨2.5, rfl, by norm_num⟩⟩⟩

/-- Claim C10: an unknown difficulty string does not fail — it maps to quality
3 and the review behaves exactly as "Medium"; and the update touches only the
first record whose `front` matches the question, leaving all others unchanged. -/
theorem review_unknown_difficulty (d : String)
    (hd : d ≠ "Hard" ∧ d ≠ "Medium" ∧ d ≠ "Easy") :
    qMap d = 3 ∧
    (∀ now question cards, reviewList now question d cards =
      reviewList now question "Medium" cards) ∧
    (∀ now question cards, reviewFirstMatchOnly now question d cards) := by
  obtain ⟨h1, h2, h3⟩ := hd
  have hq : qMap d = 3 := by
    unfold qMap
    rw [if_neg h1, if_neg h2, if_neg h3]
  refine ⟨hq, ?_, fun now question cards => reviewList_firstMatch now question d cards⟩
  intro now question cards
  induction cards with
  | nil => rfl
  | cons c rest ih =>
      by_cases h : c.front = question
      · simp only [reviewList, if_pos h]
        rw [sm2Apply_congr now d "Medium" c (by rw [hq]; decide)]
      · simp only [reviewList, if_neg h, ih]

/-- Witness for C10: the unknown difficulty "Again" on a concrete store with a
duplicate question. -/
theorem review_unknown_difficulty_witness :
    ("Again" ≠ "Hard" ∧ "Again" ≠ "Medium" ∧ "Again" ≠ "Easy") ∧
    qMap "Again" = 3 ∧
    reviewList 0 "Q1" "Again" wCards = reviewList 0 "Q1" "Medium" wCards ∧
    reviewFirstMatchOnly 0 "Q1" "Again" wCards :=
  ⟨by decide, (review_unknown_difficulty "Again" (by decide)).1,
   (review_unknown_difficulty "Again" (by decide)).2.1 0 "Q1" wCards,
   (review_unknown_difficulty "Again" (by decide)).2.2 0 "Q1" wCards⟩

/- ### Theorems: hybrid retrieval pipeline -/

/-- Membership through a stable descending insertion. -/
theorem mem_insertDesc (a x : ℚ × Chunk) (l : List (ℚ × Chunk)) :
    x ∈ insertDesc a l ↔ x = a ∨ x ∈ l := by
  induction l with
  | nil => simp [insertDesc]
  | cons b rest ih =>
      by_cases hab : a.1 < b.1
      · simp only [insertDesc, if_pos hab, List.mem_cons, ih]
        tauto
      · simp only [insertDesc, if_neg hab, List.mem_cons]

/-- Inserting into a descending-sorted list keeps it descending-sorted. -/
theorem insertDesc_pairwise (a : ℚ × Chunk) (l : List (ℚ × Chunk))
    (h : l.Pairwise (fun p q => q.1 ≤ p.1)) :
    (insertDesc a l).Pairwise (fun p q => q.1 ≤ p.1) := by
  induction l with
  | nil => simp [insertDesc]
  | cons b rest ih =>
      rw [List.pairwise_cons] at h
      obtain ⟨hb, hrest⟩ := h
      by_cases hab : a.1 < b.1
      · rw [show insertDesc a (b :: rest) = b :: insertDesc a rest from by
          simp [insertDesc, hab]]
        rw [List.pairwise_cons]
        refine ⟨?_, ih hrest⟩
        intro x hx
        rcases (mem_insertDesc a x rest).mp hx with rfl | hxr
        · exact le_of_lt hab
        · exact hb x hxr
      · rw [show insertDesc a (b :: rest) = a :: b :: rest from by
          simp [insertDesc, hab]]
        rw [List.pairwise_cons]
        constructor
        · intro x hx
          rcases List.mem_cons.mp hx with rfl | hxr
          · exact le_of_not_lt hab
          · exact le_trans (hb x hxr) (le_of_not_lt hab)
        · rw [List.pairwise_cons]
          exact ⟨hb, hrest⟩

/-- The stable sort produces a descending sequence of scores. -/
theorem sortDesc_pairwise (l : List (ℚ × Chunk)) :
    (sortDesc l).Pairwise (fun p q => q.1 ≤ p.1) := by
  induction l with
  | nil => simp [sortDesc]
  | cons a rest ih => exact insertDesc_pairwise a _ ih

/-- Filtering at any fixed score commutes with stable insertion: the inserted
element lands in front of the equal-score block. -/
theorem insertDesc_filter (a : ℚ × Chunk) (l : List (ℚ × Chunk)) (s : ℚ) :
    (insertDesc a l).filter (fun p => decide (p.1 = s)) =
      if a.1 = s then a :: l.filter (fun p => decide (p.1 = s))
      else l.filter (fun p => decide (p.1 = s)) := by
  induction l with
  | nil =>
      by_cases has : a.1 = s <;> simp [insertDesc, List.filter, has]
  | cons b rest ih =>
      by_cases hab : a.1 < b.1
      · rw [show insertDesc a (b :: rest) = b :: insertDesc a rest from by
          simp [insertDesc, hab]]
        by_cases has : a.1 = s
        · by_cases hbs : b.1 = s
          · exact absurd hab (by rw [has, hbs]; exact lt_irrefl s)
          · simp [List.filter_cons, ih, has, hbs]
        · by_cases hbs : b.1 = s
          · simp [List.filter_cons, ih, has, hbs]
          · simp [List.filter_cons, ih, has, hbs]
      · rw [show insertDesc a (b :: rest) = a :: b :: rest from by
          simp [insertDesc, hab]]
        by_cases has : a.1 = s <;> simp [List.filter_cons, has]

/-- Stability: the stable descending sort preserves, for every score value,
the original relative order (and multiplicity) of the tied elements. -/
theorem sortDesc_filter (l : List (ℚ × Chunk)) (s : ℚ) :
    (sortDesc l).filter (fun p => decide (p.1 = s)) =
      l.filter (fun p => decide (p.1 = s)) := by
  induction l with
  | nil => rfl
  | cons a rest ih =>
      show (insertDesc a (sortDesc rest)).filter _ = _
      rw [insertDesc_filter, ih, List.filter_cons]
      by_cases has : a.1 = s <;> simp [has]

/-- Stable insertion is a permutation-preserving cons. -/
theorem insertDesc_perm (a : ℚ × Chunk) (l : List (ℚ × Chunk)) :
    List.Perm (insertDesc a l) (a :: l) := by
  induction l with
  | nil => exact List.Perm.refl _
  | cons b rest ih =>
      by_cases hab : a.1 < b.1
      · rw [show insertDesc a (b :: rest) = b :: insertDesc a rest from by
          simp [insertDesc, hab]]
        exact (ih.cons b).trans (List.Perm.swap a b rest)
      · rw [show insertDesc a (b :: rest) = a :: b :: rest from by
          simp [insertDesc, hab]]

/-- The stable sort is a permutation of its input. -/
theorem sortDesc_perm (l : List (ℚ × Chunk)) : List.Perm (sortDesc l) l := by
  induction l with
  | nil => exact List.Perm.refl _
  | cons a rest ih => exact (insertDesc_perm a (sortDesc rest)).trans (ih.cons a)

/-- With reranking on, the final candidates are the score-sorted, truncated
projection of the fetched pool (also when the pool is empty). -/
theorem finalStage_rerank (scoreFn : String → String → ℚ) (query : String) (top_k : Nat)
    (cands0 : List Chunk) :
    finalStage scoreFn query top_k true cands0 =
      ((sortDesc ((cands0.map (fun c => scoreFn query c.text)).zip cands0)).take top_k).map
        Prod.snd := by
  by_cases hc : cands0.isEmpty = true
  · obtain rfl : cands0 = [] := List.isEmpty_iff.mp hc
    simp [finalStage, rerankStage, sortDesc]
  · simp [finalStage, rerankStage, hc]

/-- With reranking on, the cross-encoder scores exactly the (raw query, text)
pairs of the fetched pool. -/
theorem pairsStage_rerank (query : String) (cands0 : List Chunk) :
    pairsStage query true cands0 = cands0.map (fun c => (query, c.text)) := by
  by_cases hc : cands0.isEmpty = true
  · obtain rfl : cands0 = [] := List.isEmpty_iff.mp hc
    rfl
  · simp [pairsStage, hc]

/-- Candidate collection never yields more candidates than returned indices. -/
theorem collectCandidates_length_le (chunks : List Chunk) (idxs : List Int) :
    (collectCandidates chunks idxs).length ≤ idxs.length :=
  le_trans (List.length_filterMap_le _ _) (List.length_filter_le _ _)

/-- The raw entries carry the sequential ids `sid, sid+1, ...`. -/
theorem labelEntries_ids (sid : Nat) (cands : List Chunk) :
    ((labelEntries sid cands).map (fun e => e.2.2)).map RawEntry.id =
      List.range' sid cands.length := by
  induction cands generalizing sid with
  | nil => rfl
  | cons c rest ih =>
      simp only [labelEntries, List.map_cons, List.length_cons, List.range'_succ]
      rw [ih]

/-- The `i`-th label entry belongs to the `i`-th candidate and carries id `sid + i`. -/
theorem labelEntries_get (sid : Nat) (cands : List Chunk) :
    ∀ i c, cands.get? i = some c →
      (labelEntries sid cands).get? i =
        some (labelLine (sid + i) c.text, (toString (sid + i), chunkFname c),
          ⟨sid + i, chunkFname c, c.text⟩) := by
  induction cands generalizing sid with
  | nil => intro i c h; simp at h
  | cons a rest ih =>
      intro i c h
      cases i with
      | zero =>
          simp only [List.get?_cons_zero, Option.some.injEq] at h
          subst h
          simp [labelEntries]
      | succ i =>
          simp only [List.get?_cons_succ] at h
          simp only [labelEntries, List.get?_cons_succ]
          rw [ih (sid + 1) i c h]
          have he : sid + 1 + i = sid + (i + 1) := by omega
          rw [he]

/-- The labeled blocks are exactly `SOURCE [id]: text` over the raw entries. -/
theorem labelEntries_fst (sid : Nat) (cands : List Chunk) :
    (labelEntries sid cands).map (fun e => e.1) =
      ((labelEntries sid cands).map (fun e => e.2.2)).map (fun r => labelLine r.id r.text) := by
  induction cands generalizing sid with
  | nil => rfl
  | cons c rest ih =>
      simp only [labelEntries, List.map_cons]
      rw [ih]

/-- The source map pairs each raw entry's id (as a string) with its file. -/
theorem labelEntries_snd (sid : Nat) (cands : List Chunk) :
    (labelEntries sid cands).map (fun e => e.2.1) =
      ((labelEntries sid cands).map (fun e => e.2.2)).map (fun r => (toString r.id, r.file)) := by
  induction cands generalizing sid with
  | nil => rfl
  | cons c rest ih =>
      simp only [labelEntries, List.map_cons]
      rw [ih]

/-- App variant of `labelEntries_ids`. -/
theorem labelEntriesApp_ids (sid : Nat) (cands : List Chunk) :
    ((labelEntriesApp sid cands).map (fun e => e.2.2)).map RawEntry.id =
      List.range' sid cands.length := by
  induction cands generalizing sid with
  | nil => rfl
  | cons c rest ih =>
      simp only [labelEntriesApp, List.map_cons, List.length_cons, List.range'_succ]
      rw [ih]

/-- Looking up the integer key `sid + i` in the app source map finds the
`i`-th candidate's source file. -/
theorem labelEntriesApp_lookup (cands : List Chunk) :
    ∀ sid i c, cands.get? i = some c →
      List.lookup (sid + i) ((labelEntriesApp sid cands).map (fun e => e.2.1)) =
        some (chunkFname c) := by
  induction cands with
  | nil => intro sid i c h; simp at h
  | cons a rest ih =>
      intro sid i c h
      cases i with
      | zero =>
          simp only [List.get?_cons_zero, Option.some.injEq] at h
          subst h
          simp [labelEntriesApp, List.lookup]
      | succ i =>
          simp only [List.get?_cons_succ] at h
          simp only [labelEntriesApp, List.map_cons]
          have hne : (sid + (i + 1) == sid) = false := by
            simp only [beq_eq_false_iff_ne, ne_eq]
            omega
          rw [List.lookup_cons, hne]
          show List.lookup (sid + (i + 1))
              ((labelEntriesApp (sid + 1) rest).map (fun e => e.2.1)) = some (chunkFname c)
          have he : sid + (i + 1) = (sid + 1) + i := by omega
          rw [he]
          exact ih (sid + 1) i c h

/-- The server labeling loop satisfies the citation contract, for any final
candidate list. -/
theorem citationProps_labelEntries (cands : List Chunk) :
    (((labelEntries 1 cands).map (fun e => e.2.2)).map RawEntry.id =
      List.range' 1 cands.length) ∧
    (∀ i c, cands.get? i = some c →
      ((labelEntries 1 cands).map (fun e => e.2.2)).get? i =
        some ⟨i + 1, chunkFname c, c.text⟩ ∧
      ((labelEntries 1 cands).map (fun e => e.2.1)).get? i =
        some (toString (i + 1), chunkFname c)) ∧
    (String.intercalate "\n\n" ((labelEntries 1 cands).map (fun e => e.1)) =
      String.intercalate "\n\n" (((labelEntries 1 cands).map (fun e => e.2.2)).map
        (fun r => labelLine r.id r.text))) ∧
    (cands = [] →
      String.intercalate "\n\n" ((labelEntries 1 cands).map (fun e => e.1)) = "" ∧
      (labelEntries 1 cands).map (fun e => e.2.1) = [] ∧
      (labelEntries 1 cands).map (fun e => e.2.2) = []) ∧
    ((labelEntries 1 cands).map (fun e => e.2.1) =
      ((labelEntries 1 cands).map (fun e => e.2.2)).map (fun r => (toString r.id, r.file))) := by
  refine ⟨labelEntries_ids 1 cands, ?_, ?_, ?_, labelEntries_snd 1 cands⟩
  · intro i c h
    have hg := labelEntries_get 1 cands i c h
    have h1 : 1 + i = i + 1 := by omega
    rw [h1] at hg
    constructor
    · rw [List.get?_map, hg]
      rfl
    · rw [List.get?_map, hg]
      rfl
  · exact congrArg (String.intercalate "\n\n") (labelEntries_fst 1 cands)
  · rintro rfl
    exact ⟨rfl, rfl, rfl⟩

/-- The app labeling loop satisfies the citation contract, for any final
candidate list. -/
theorem citationPropsApp_labelEntries (cands : List Chunk) :
    (((labelEntriesApp 1 cands).map (fun e => e.2.2)).map RawEntry.id =
      List.range' 1 cands.length) ∧
    (∀ i c, cands.get? i = some c →
      List.lookup (i + 1) ((labelEntriesApp 1 cands).map (fun e => e.2.1)) =
        some (chunkFname c)) := by
  refine ⟨labelEntriesApp_ids 1 cands, ?_⟩
  intro i c h
  have hl := labelEntriesApp_lookup cands 1 i c h
  have h1 : 1 + i = i + 1 := by omega
  rw [h1] at hl
  exact hl

/-- Claim C8: with no index loaded, both retrieval variants return the empty
triple (empty labeled context, empty source map, empty raw sequence) without
raising, without any vector search, and without calling the embedder or the
cross-encoder — for every query and every flag combination. -/
theorem retrieve_missing_index (chunks : List Chunk) (searchFn : String → Nat → List Int)
    (llmText : String → String) (scoreFn : String → String → ℚ)
    (query : String) (top_k : Nat) (use_hyde use_rerank : Bool) :
    retrieve_context_server chunks searchFn llmText scoreFn false query top_k
        use_hyde use_rerank =
      { ctx := "", source_map := [], raw := [], finalCands := [], embedInputs := [],
        searchCalls := [], rerankPairs := [] } ∧
    retrieve_context_app chunks searchFn llmText scoreFn false query top_k
        use_hyde use_rerank =
      { ctx := "", source_map := [], raw := [], finalCands := [], embedInputs := [],
        searchCalls := [], rerankPairs := [] } :=
  ⟨rfl, rfl⟩

/-- Counterexample to Claim C6 as stated: the server variant at
`top_k = 6, use_rerank = true` issues a vector search for 12 candidates,
not 18. -/
theorem retrieve_fetch_width_cex :
    (retrieve_context_server [] (fun _ _ => []) (fun s => s) (fun _ _ => 0) true "q" 6
        false true).searchCalls = [12] ∧
    ¬ (retrieve_context_server [] (fun _ _ => []) (fun s => s) (fun _ _ => 0) true "q" 6
        false true).searchCalls = [18] :=
  ⟨rfl, by decide⟩

/-- Claim C6 (amended): each retrieval variant issues exactly one vector
search of width `top_k × F` when reranking is enabled and exactly `top_k`
otherwise; the over-fetch factor is `F = 2` in the server variant (12 for
`top_k = 6`) and `F = 3` in the app variant (18 for `top_k = 6`). -/
theorem retrieve_fetch_width (chunks : List Chunk) (searchFn : String → Nat → List Int)
    (llmText : String → String) (scoreFn : String → String → ℚ)
    (query : String) (top_k : Nat) (use_hyde use_rerank : Bool) :
    (retrieve_context_server chunks searchFn llmText scoreFn true query top_k
        use_hyde use_rerank).searchCalls = [if use_rerank then top_k * 2 else top_k] ∧
    (retrieve_context_app chunks searchFn llmText scoreFn true query top_k
        use_hyde use_rerank).searchCalls = [if use_rerank then top_k * 3 else top_k] ∧
    serverFetchK 6 true = 12 ∧ appFetchK 6 true = 18 ∧
    serverFetchK 6 false = 6 ∧ appFetchK 6 false = 6 :=
  ⟨rfl, rfl, rfl, rfl, rfl, rfl⟩

/-- Claim C7: with reranking enabled, retrieval scores every (raw query,
candidate text) pair — the raw query even when HyDE replaced the embedding
input — and returns the candidates stably sorted by descending score (a
permutation of the fetched pool whose per-score blocks keep their original
order), truncated to `top_k`; with reranking disabled the vector-search order
stands, bounded by the number of returned indices (`fetch_k = top_k`).
Includes the spec's example: scores `[0.2, 0.9, 0.5]` return as
`[0.9, 0.5, 0.2]`. -/
theorem retrieve_rerank_order (chunks : List Chunk) (searchFn : String → Nat → List Int)
    (llmText : String → String) (scoreFn : String → String → ℚ)
    (query : String) (top_k : Nat) (use_hyde : Bool) :
    (let sq := searchQueryOf llmText query use_hyde
     let out := retrieve_context_server chunks searchFn llmText scoreFn true query top_k
       use_hyde true
     let cands0 := collectCandidates chunks (searchFn sq (serverFetchK top_k true))
     let scored := (cands0.map (fun c => scoreFn query c.text)).zip cands0
     out.embedInputs = [sq] ∧
     out.rerankPairs = cands0.map (fun c => (query, c.text)) ∧
     out.finalCands = ((sortDesc scored).take top_k).map Prod.snd ∧
     (sortDesc scored).Pairwise (fun p q => q.1 ≤ p.1) ∧
     (∀ s : ℚ, (sortDesc scored).filter (fun p => decide (p.1 = s)) =
       scored.filter (fun p => decide (p.1 = s))) ∧
     List.Perm (sortDesc scored) scored) ∧
    (let sq := searchQueryOf llmText query use_hyde
     let outNo := retrieve_context_server chunks searchFn llmText scoreFn true query top_k
       use_hyde false
     outNo.finalCands = collectCandidates chunks (searchFn sq (serverFetchK top_k false)) ∧
     outNo.finalCands.length ≤ (searchFn sq (serverFetchK top_k false)).length) ∧
    rerankExample := by
  refine ⟨?_, ⟨rfl, collectCandidates_length_le _ _⟩, ?_⟩
  · intro sq out cands0 scored
    exact ⟨rfl, pairsStage_rerank query cands0, finalStage_rerank scoreFn query top_k cands0,
      sortDesc_pairwise scored, fun s => sortDesc_filter scored s, sortDesc_perm scored⟩
  · unfold rerankExample
    decide

/-- Claim C9: both retrieval variants label the final candidates with
sequential 1-based ids in final rank order — the raw sequence carries ids
`1..n`, the `i`-th source-map/raw entries belong to the `i`-th ranked
candidate, the labeled context is the `SOURCE [id]: text` blocks joined by
blank lines, an empty candidate set yields empty context/map/sequence, and in
the app variant looking up id `i+1` returns the `i`-th candidate's source
file. -/
theorem retrieve_citation_labels (chunks : List Chunk) (searchFn : String → Nat → List Int)
    (llmText : String → String) (scoreFn : String → String → ℚ) (indexLoaded : Bool)
    (query : String) (top_k : Nat) (use_hyde use_rerank : Bool) :
    CitationProps (retrieve_context_server chunks searchFn llmText scoreFn indexLoaded
      query top_k use_hyde use_rerank) ∧
    CitationPropsApp (retrieve_context_app chunks searchFn llmText scoreFn indexLoaded
      query top_k use_hyde use_rerank) := by
  cases indexLoaded with
  | false =>
      constructor
      · refine ⟨rfl, ?_, rfl, fun _ => ⟨rfl, rfl, rfl⟩, rfl⟩
        intro i c h
        simp [retrieve_context_server] at h
      · refine ⟨rfl, ?_⟩
        intro i c h
        simp [retrieve_context_app] at h
  | true =>
      constructor
      · have h := citationProps_labelEntries (finalStage scoreFn query top_k use_rerank
          (collectCandidates chunks (searchFn (searchQueryOf llmText query use_hyde)
            (serverFetchK top_k use_rerank))))
        exact ⟨h.1, h.2.1, h.2.2.1, h.2.2.2.1, h.2.2.2.2⟩
      · have h := citationPropsApp_labelEntries (finalStage scoreFn query top_k use_rerank
          (collectCandidatesApp chunks (searchFn (searchQueryOf llmText query use_hyde)
            (appFetchK top_k use_rerank))))
        exact ⟨h.1, h.2⟩

/-- Witness for C9 on a concrete three-chunk corpus with reranking. -/
theorem retrieve_citation_labels_witness :
    CitationProps (retrieve_context_server wChunks3 wSearch3 wId wScore3 true "q" 3
      false true) ∧
    CitationPropsApp (retrieve_context_app wChunks3 wSearch3 wId wScore3 true "q" 3
      false true) :=
  retrieve_citation_labels wChunks3 wSearch3 wId wScore3 true "q" 3 false true
